import Mathlib

/-!
# Verification of the efemel chunked functional-pipeline engine

Shallow embedding of `src/efemel/pipeline.py` (class `Pipeline`, class
`CompoundError`) and of `src/efemel/pipeline/transformers/transformer.py`
(`Transformer._chunk_generator`, `Transformer._ordered_generator`).

Modelling conventions:
* Python values are modelled by the inductive `PyVal` (the pipeline is
  dynamically typed; `flatten` branches on `isinstance(value, list|tuple|set)`).
* An exception is modelled by `Exc` (its class name and its message, the two
  pieces that `CompoundError._format_message` uses).
* A `PipelineItem` is `Item`: a value and an optional captured error.  The
  `context` field of the Python named tuple is a shared mutable reference; the
  shared context is modelled explicitly at pipeline level where a claim needs
  it (the `has_errors` flag is threaded as an explicit `Bool` through the
  operations that assign it, and the full context with user keys is modelled
  for the `concurrent` context-merge machinery).
* A chunk stream (`self.generator`) is a finite `List` of chunks.
-/

set_option autoImplicit false

namespace Efemel

universe u v

/-- A Python exception as used by `CompoundError._format_message`:
`type(error).__name__` and `str(error)`. -/
structure Exc where
  name : String
  msg : String
  deriving DecidableEq, Repr

/-- A Python value flowing through the dynamically-typed pipeline.  `flatten`
distinguishes `list`/`tuple`/`set` (modelled with their iteration order) from
every other value. -/
inductive PyVal where
  | int : Int → PyVal
  | str : String → PyVal
  | list : List PyVal → PyVal
  | tuple : List PyVal → PyVal
  | set : List PyVal → PyVal

/-- Model of `PipelineItem`: `(value, error, context)`; the shared `context` reference
is modelled at pipeline level, not per item. -/
structure Item where
  value : PyVal
  error : Option Exc

/-- A chunk stream: what `self.generator` yields. -/
abbrev Chunks := List (List Item)

/-- Model of `CompoundError`: aggregates the underlying errors of one traversal. -/
structure CompoundErr where
  errors : List Exc
  deriving DecidableEq, Repr

/-! ## Chunker

`Pipeline._chunked_and_wrap` accumulates a `chunk` list, appending each item
and yielding whenever the accumulator reaches `size`, then yields the nonempty
remainder.  `chunkedLoop` is that loop with `out` collecting the yields. -/

/-- The chunk-accumulating loop of `Pipeline._chunked_and_wrap`:
`for item in iterable: chunk.append(item); if len(chunk) == size: yield chunk`.
Returns the yielded chunks and the leftover accumulator. -/
def chunkedLoop {α : Type u} (size : Nat) :
    List (List α) → List α → List α → List (List α) × List α
  | out, cur, [] => (out, cur)
  | out, cur, x :: xs =>
    let cur' := cur ++ [x]
    if cur'.length = size then chunkedLoop size (out ++ [cur']) [] xs
    else chunkedLoop size out cur' xs

/-- Model of `Pipeline._chunked_and_wrap` without the item wrapping: the yielded
chunks, with the trailing `if chunk: yield chunk`. -/
def chunked {α : Type u} (size : Nat) (l : List α) : List (List α) :=
  let (out, cur) := chunkedLoop size [] [] l
  if cur.isEmpty then out else out ++ [cur]

/-- Model of `Pipeline._chunked_and_wrap`: each element is wrapped as
`PipelineItem(item, None, self.context)` as it is appended, so the yielded
chunks are the chunks of the wrapped element sequence. -/
def chunkedAndWrap (size : Nat) (l : List PyVal) : Chunks :=
  chunked size (l.map (fun v => Item.mk v none))

/-- Fuelled loop of `Transformer._chunk_generator`: `while chunk :=
list(islice(data_iter, self.chunk_size)): yield chunk`.  The fuel is an upper
bound on the number of loop iterations; `chunkGenerator` supplies `l.length`,
which suffices because every iteration that yields consumes at least one
element. -/
def chunkGeneratorAux {α : Type u} (size : Nat) : Nat → List α → List (List α)
  | 0, _ => []
  | n + 1, l =>
    let c := l.take size
    if c.isEmpty then [] else c :: chunkGeneratorAux size n (l.drop size)

/-- Model of `Transformer._chunk_generator` on a finite source. -/
def chunkGenerator {α : Type u} (size : Nat) (l : List α) : List (List α) :=
  chunkGeneratorAux size l.length l

/-! ## Terminal operations -/

/-- One step of the item loop in `Pipeline.to_list`: an errored item goes to
`errors`, a successful value goes to `results`. -/
def toListStep (st : List PyVal × List Exc) (it : Item) : List PyVal × List Exc :=
  match it.error with
  | some e => (st.1, st.2 ++ [e])
  | none => (st.1 ++ [it.value], st.2)

/-- Model of `Pipeline.to_list`: drain all chunks; raise `CompoundError` with
every captured error when any error was observed, else return the collected
results. -/
def toList (chunks : Chunks) : Except CompoundErr (List PyVal) :=
  let (results, errors) := chunks.foldl (fun st c => c.foldl toListStep st) ([], [])
  if errors.isEmpty then Except.ok results else Except.error ⟨errors⟩

/-- Model of `CompoundError._format_message`: a header with the error count,
then each error appended as an indexed line, enumerating from one. -/
def formatMessage (errors : List Exc) : String :=
  let header := toString errors.length ++ " error(s) occurred in the pipeline:\n"
  (errors.enumFrom 1).foldl
    (fun message ie =>
      message ++ ("  " ++ toString ie.1 ++ ". " ++ ie.2.name ++ ": " ++ ie.2.msg ++ "\n"))
    header

/-- The errors that a terminal traversal of a chunk stream observes, in
traversal order. -/
def traversalErrors (chunks : Chunks) : List Exc :=
  chunks.flatten.filterMap (fun it => it.error)

/-- The successful values of a chunk stream, in traversal order. -/
def okValues (chunks : Chunks) : List PyVal :=
  chunks.flatten.filterMap (fun it => match it.error with
    | none => some it.value
    | some _ => none)

/-- Outcome of `Pipeline.first`: either the raised error or the value. -/
inductive TerminalErr where
  | compound : List Exc → TerminalErr
  | stopIteration : String → TerminalErr
  deriving DecidableEq, Repr

/-- Model of `Pipeline.first`: `items = self.to_list()` (which raises a
`CompoundError` when any error was captured anywhere in the pipeline); then
`StopIteration("Pipeline is empty")` when `items` is empty, else `items[0]`. -/
def firstOp (chunks : Chunks) : Except TerminalErr PyVal :=
  match toList chunks with
  | Except.error ce => Except.error (TerminalErr.compound ce.errors)
  | Except.ok [] => Except.error (TerminalErr.stopIteration "Pipeline is empty")
  | Except.ok (x :: _) => Except.ok x

/-! ## map

A user function is modelled as `PyVal → Except Exc PyVal`: `Except.error e`
models the function raising exception `e`.  The `has_errors` flag of the
shared context is threaded explicitly as a `Bool`. -/

/-- One step of the item loop in `Pipeline.map`: an errored item is appended
unchanged and `has_errors` is set; otherwise the function is applied, the
result wrapped on success, and the exception captured together with the
pre-call value on failure (also setting `has_errors`). -/
def mapItemStep (f : PyVal → Except Exc PyVal) (st : List Item × Bool) (it : Item) :
    List Item × Bool :=
  match it.error with
  | some _ => (st.1 ++ [it], true)
  | none =>
    match f it.value with
    | Except.ok r => (st.1 ++ [Item.mk r none], st.2)
    | Except.error e => (st.1 ++ [Item.mk it.value (some e)], true)

/-- Model of the chunk loop of `Pipeline.map`: every chunk is rebuilt by the
item loop; the `has_errors` flag is threaded through in traversal order. -/
def mapChunks (f : PyVal → Except Exc PyVal) : Chunks → Bool → Chunks × Bool
  | [], he => ([], he)
  | c :: cs, he =>
    let (c', he') := c.foldl (mapItemStep f) ([], he)
    let (cs', he'') := mapChunks f cs he'
    (c' :: cs', he'')

/-! ## reduce -/

/-- One step of the item loop in `Pipeline.reduce`: an errored item joins
`error_items` (setting `has_errors`); otherwise the reduce function is folded
into the accumulator, a raise turning the item into an error item. -/
def reduceItemStep (f : PyVal → PyVal → Except Exc PyVal)
    (st : PyVal × List Item × Bool) (it : Item) : PyVal × List Item × Bool :=
  match it.error with
  | some _ => (st.1, st.2.1 ++ [it], true)
  | none =>
    match f st.1 it.value with
    | Except.ok a => (a, st.2.1, st.2.2)
    | Except.error e => (st.1, st.2.1 ++ [Item.mk it.value (some e)], true)

/-- Model of `Pipeline.reduce`: fold all chunks through the item loop, then
yield the collected error items (when any) followed by the single-item result
chunk. -/
def reduceChunks (f : PyVal → PyVal → Except Exc PyVal) (initial : PyVal)
    (chunks : Chunks) (he : Bool) : Chunks × Bool :=
  let (acc, errorItems, he') :=
    chunks.foldl (fun st c => c.foldl (reduceItemStep f) st) (initial, [], he)
  ((if errorItems.isEmpty then [] else [errorItems]) ++ [[Item.mk acc none]], he')

/-! ## flatten -/

/-- Result of `isinstance(value, list | tuple | set)` together with the
elements iterated over when the test succeeds. -/
def seqElems : PyVal → Option (List PyVal)
  | PyVal.list xs => some xs
  | PyVal.tuple xs => some xs
  | PyVal.set xs => some xs
  | _ => none

/-- The trailing `if len(current_chunk) == self.chunk_size: yield ...` check
of `Pipeline.flatten`. -/
def emitIfFull (size : Nat) (st : Chunks × List Item) : Chunks × List Item :=
  if st.2.length = size then (st.1 ++ [st.2], []) else st

/-- The inner loop of `Pipeline.flatten` over the elements of a sequence
value: each element is appended as a fresh successful item, yielding the
accumulator whenever it reaches `size`. -/
def flattenInner (size : Nat) : Chunks → List Item → List PyVal → Chunks × List Item
  | out, cur, [] => (out, cur)
  | out, cur, x :: xs =>
    let cur' := cur ++ [Item.mk x none]
    if cur'.length = size then flattenInner size (out ++ [cur']) [] xs
    else flattenInner size out cur' xs

/-- One step of the item loop in `Pipeline.flatten`: errored items pass
through directly (setting `has_errors`), sequence values are expanded by the
inner loop, any other value passes through as a fresh successful item; each
branch is followed by the trailing chunk-size check. -/
def flattenStep (size : Nat) (st : Chunks × List Item × Bool) (it : Item) :
    Chunks × List Item × Bool :=
  let (out, cur, he) := st
  match it.error with
  | some _ =>
    let (out', cur') := emitIfFull size (out, cur ++ [it])
    (out', cur', true)
  | none =>
    match seqElems it.value with
    | some xs =>
      let (out', cur') := flattenInner size out cur xs
      let (out'', cur'') := emitIfFull size (out', cur')
      (out'', cur'', he)
    | none =>
      let (out', cur') := emitIfFull size (out, cur ++ [Item.mk it.value none])
      (out', cur', he)

/-- Model of `Pipeline.flatten`: run the item loop over every chunk, then
yield the nonempty leftover accumulator. -/
def flattenChunks (size : Nat) (chunks : Chunks) (he : Bool) : Chunks × Bool :=
  let (out, cur, he') :=
    chunks.foldl (fun st c => c.foldl (flattenStep size) st) ([], [], he)
  ((if cur.isEmpty then out else out ++ [cur]), he')

/-- Expansion of a single item as described by the spec for `flatten`: one new
successful item per inner element of a sequence value, errored items and
non-sequence values passing through as single items. -/
def flattenItemSpec (it : Item) : List Item :=
  match it.error with
  | some _ => [it]
  | none =>
    match seqElems it.value with
    | some xs => xs.map (fun x => Item.mk x none)
    | none => [Item.mk it.value none]

/-! ## concurrent: item-level behaviour

In `Pipeline.concurrent` the caller-supplied `pipeline_func` transforms a
pipeline; at the level of chunk streams a pure (context-independent)
`pipeline_func` is a function `Chunks → Chunks`.  `apply_to_chunk` wraps one
chunk into a one-chunk mini pipeline, applies `pipeline_func`, and flattens
the resulting chunk stream into a single result list.  With `ordered=True`,
`ordered_generator` submits every upstream chunk (the whole generator is
drained into the deque of futures) and pops results in submission order, so
the delivered chunk stream is `apply_to_chunk` mapped over the upstream
chunks. -/

/-- Item-level model of `apply_to_chunk`: the one-chunk mini pipeline is
transformed by `g` and the resulting chunks are collected into one list. -/
def applyToChunk (g : Chunks → Chunks) (chunk : List Item) : List Item :=
  (g [chunk]).flatten

/-- Item-level model of `Pipeline.concurrent` with `ordered=True`: results
are popped in submission order, one result chunk per upstream chunk. -/
def concurrentOrdered (g : Chunks → Chunks) (chunks : Chunks) : Chunks :=
  chunks.map (applyToChunk g)

/-- Item-level model of `Pipeline.apply`: `function(self)`. -/
def applyPipeline (g : Chunks → Chunks) (chunks : Chunks) : Chunks :=
  g chunks

/-! ## concurrent: context life cycle

`PipelineContext` is a dict with the reserved keys `has_errors` and `errors`
plus arbitrary user keys.  A user value is modelled by `UVal`, which records
exactly the type distinctions the merge code inspects (`isinstance(value,
list)`, `isinstance(value, dict)`, anything else); the elements themselves are
never examined, so they are modelled as integers.  An entry of the `errors`
list is the `{"value": ..., "error": ...}` record appended by `catch`. -/

/-- A user-key value, as far as the type-aware merge of `Pipeline.concurrent`
inspects it. -/
inductive UVal where
  | ulist : List Int → UVal
  | udict : List (String × Int) → UVal
  | uother : Int → UVal
  deriving DecidableEq, Repr

/-- Look up a key in an insertion-ordered association list. -/
def lookupKey {β : Type u} : List (String × β) → String → Option β
  | [], _ => none
  | (k, v) :: rest, key => if k = key then some v else lookupKey rest key

/-- Set a key in an insertion-ordered association list, replacing the value in
place when present and appending otherwise (Python dict assignment). -/
def setKey {β : Type u} : List (String × β) → String → β → List (String × β)
  | [], key, v => [(key, v)]
  | (k, w) :: rest, key, v =>
    if k = key then (k, v) :: rest else (k, w) :: setKey rest key v

/-- Python `dict.update`: every key of the second dict is written into the
first, later wins. -/
def dictUpdate (d : List (String × Int)) (upd : List (String × Int)) :
    List (String × Int) :=
  upd.foldl (fun acc kv => setKey acc kv.1 kv.2) d

/-- Model of `PipelineContext`: the reserved keys and the user keys. -/
structure Ctx where
  has_errors : Bool
  errors : List (Int × Exc)
  user : List (String × UVal)
  deriving DecidableEq, Repr

/-- The isolated context built by `apply_to_chunk`: a fresh dict updated with
every current key of the parent, then `has_errors` and `errors` reset. -/
def mkIsolated (parent : Ctx) : Ctx :=
  { has_errors := false, errors := [], user := parent.user }

/-- The mutable state captured by the closures of `Pipeline.concurrent`: the
parent context plus the `merged_errors` and `isolated_contexts` lists that
live in the enclosing call. -/
structure ConcState where
  parent : Ctx
  mergedErrors : List (Int × Exc)
  isolatedContexts : List Ctx
  deriving DecidableEq, Repr

/-- The `with context_lock` block at the end of `apply_to_chunk`, run once per
completed worker: record the isolated context; when it holds errors, set the
parent's `has_errors` and extend the local `merged_errors` list. -/
def lockBlock (iso : Ctx) (st : ConcState) : ConcState :=
  let st' := { st with isolatedContexts := st.isolatedContexts ++ [iso] }
  if iso.has_errors || !iso.errors.isEmpty then
    { st' with
      parent := { st'.parent with has_errors := true },
      mergedErrors := st'.mergedErrors ++ iso.errors }
  else st'

/-- The type-aware merge of one user key: lists are concatenated, dicts are
updated, anything else is overwritten with the isolated value. -/
def mergeKey (parentVal isoVal : UVal) : UVal :=
  match isoVal, parentVal with
  | UVal.ulist l, UVal.ulist pl => UVal.ulist (pl ++ l)
  | UVal.udict d, UVal.udict pd => UVal.udict (dictUpdate pd d)
  | v, _ => v

/-- Merge every user key of one isolated context into the parent's user keys:
existing keys are merged type-aware, new keys are added. -/
def mergeUser (parent : List (String × UVal)) (iso : List (String × UVal)) :
    List (String × UVal) :=
  iso.foldl
    (fun acc kv =>
      match lookupKey acc kv.1 with
      | some pv => setKey acc kv.1 (mergeKey pv kv.2)
      | none => setKey acc kv.1 kv.2)
    parent

/-- The block labelled `Final context merge after all threads complete` in
`Pipeline.concurrent`: extend the parent's `errors` with `merged_errors`,
then merge the user keys of every recorded isolated context. -/
def finalMergeBlock (st : ConcState) : ConcState :=
  let p := st.parent
  let p' := { p with errors := p.errors ++ st.mergedErrors }
  let p'' := st.isolatedContexts.foldl
    (fun acc iso => { acc with user := mergeUser acc.user iso.user }) p'
  { st with parent := p'' }

/-- Context life cycle of one `Pipeline.concurrent` call, in the order the
statements actually execute.  `Pipeline._from_chunks` stores the (unstarted)
generator returned by `process_in_pool`, so the block labelled
`Final context merge after all threads complete` runs immediately when
`concurrent` returns — before the result pipeline is consumed and hence
before any worker has run.  The workers then run as the result generator is
drained: each receives an isolated copy of the current parent context and its
`with context_lock` block executes when it completes.  A worker is modelled
by the function from its isolated context at start to its isolated context at
completion. -/
def concurrentCtx (parent : Ctx) (workers : List (Ctx → Ctx)) : Ctx :=
  let st0 : ConcState := { parent := parent, mergedErrors := [], isolatedContexts := [] }
  let st1 := finalMergeBlock st0
  let st2 := workers.foldl (fun st w => lockBlock (w (mkIsolated st.parent)) st) st1
  st2.parent

/-! ## Submission schedules of the ordered generators

Both ordered generators interleave `executor.submit` calls and yields on the
consuming thread, so the order of submission and yield events is fixed by the
code independently of worker timing.  An event trace records those events
(chunks numbered by submission index); the number of submitted-but-unconsumed
tasks after a trace prefix is the number of submit events minus the number of
yield events in it. -/

/-- A scheduling event of an ordered generator: a chunk is submitted to the
pool, or a chunk's result is yielded to the consumer. -/
inductive Ev where
  | submit : Nat → Ev
  | deliver : Nat → Ev
  deriving DecidableEq, Repr

/-- Event trace of `ordered_generator` in `Pipeline.concurrent` over `n`
chunks: `deque(executor.submit(apply_to_chunk, chunk) for chunk in
self.generator)` drains the whole upstream generator, submitting every chunk,
and only then are results popped and yielded in submission order. -/
def pipelineOrderedTrace (n : Nat) : List Ev :=
  (List.range n).map Ev.submit ++ (List.range n).map Ev.deliver

/-- The while loop of `Transformer._ordered_generator`: `queue` holds the
submitted-but-unconsumed chunk indices, `rest` the not-yet-submitted ones.
Each iteration yields the front of the queue and then submits the next chunk
when one remains (`except StopIteration: continue`); the loop ends when the
queue is empty. -/
def transformerOrderedLoop : List Nat → List Nat → List Ev
  | [], queue => queue.map Ev.deliver
  | r :: rs, queue =>
    match queue with
    | [] => []
    | i :: q => Ev.deliver i :: Ev.submit r :: transformerOrderedLoop rs (q ++ [r])

/-- Event trace of `Transformer._ordered_generator` with pool size `m` over
`n` chunks: the initial batch submits up to `max_workers + 1` chunks, then the
while loop runs. -/
def transformerOrderedTrace (m n : Nat) : List Ev :=
  let k := min (m + 1) n
  (List.range k).map Ev.submit ++
    transformerOrderedLoop (List.drop k (List.range n)) (List.range k)

/-- Number of submitted-but-unconsumed tasks after processing a trace, given
the count at its start. -/
def inFlightAfter : Nat → List Ev → Nat
  | cur, [] => cur
  | cur, Ev.submit _ :: es => inFlightAfter (cur + 1) es
  | cur, Ev.deliver _ :: es => inFlightAfter (cur - 1) es

/-- Largest number of submitted-but-unconsumed tasks reached along a trace. -/
def maxInFlightFrom : Nat → List Ev → Nat
  | cur, [] => cur
  | cur, Ev.submit _ :: es => max (cur + 1) (maxInFlightFrom (cur + 1) es)
  | cur, Ev.deliver _ :: es => max cur (maxInFlightFrom (cur - 1) es)

/-- Largest number of submitted-but-unconsumed tasks along a trace, starting
from an idle pool. -/
def maxInFlight (t : List Ev) : Nat :=
  maxInFlightFrom 0 t

/-- The chunk indices delivered by a trace, in delivery order. -/
def deliveries : List Ev → List Nat
  | [] => []
  | Ev.submit _ :: es => deliveries es
  | Ev.deliver i :: es => i :: deliveries es

/-- The chunk indices submitted by a trace, in submission order. -/
def submissions : List Ev → List Nat
  | [] => []
  | Ev.submit i :: es => i :: submissions es
  | Ev.deliver _ :: es => submissions es

/-! ## Constructor sharing

`Pipeline.__init__` with a `Pipeline` source copies the source's `generator`,
`chunk_size` and `context` attributes — all three are object references, so
the two pipelines share one generator object and one context object.  Object
identity is modelled by reference numbers into an allocation state: building
from a plain iterable allocates a fresh context dict and a fresh generator,
building from a pipeline allocates nothing. -/

/-- A pipeline object as `__init__` leaves it: references to its generator
object and its context object, plus its chunk size. -/
structure PipelineObj where
  genRef : Nat
  ctxRef : Nat
  chunk_size : Nat
  deriving DecidableEq, Repr

/-- The two kinds of `source` accepted by `Pipeline.__init__`. -/
inductive Source where
  | iterable : List PyVal → Source
  | pipeline : PipelineObj → Source

/-- Allocation state: the next fresh reference, the allocated context objects
and the allocated generator objects with their pending chunk streams. -/
structure InitState where
  next : Nat
  ctxs : List (Nat × Ctx)
  gens : List (Nat × Chunks)

/-- Model of `Pipeline.__init__`: a `Pipeline` source has its `generator`,
`chunk_size` and `context` references copied (the `chunk_size` argument is
unused on that branch); an iterable source allocates a fresh context
`PipelineContext(has_errors=False, errors=[])` and a fresh generator holding
`self._chunked_and_wrap(source, chunk_size)`. -/
def mkPipeline (src : Source) (chunkSize : Nat) (st : InitState) :
    PipelineObj × InitState :=
  match src with
  | Source.pipeline p =>
    ({ genRef := p.genRef, ctxRef := p.ctxRef, chunk_size := p.chunk_size }, st)
  | Source.iterable vals =>
    let ctxRef := st.next
    let genRef := st.next + 1
    ({ genRef := genRef, ctxRef := ctxRef, chunk_size := chunkSize },
     { next := st.next + 2,
       ctxs := st.ctxs ++ [(ctxRef, { has_errors := false, errors := [], user := [] })],
       gens := st.gens ++ [(genRef, chunkedAndWrap chunkSize vals)] })

/-- Consume the generator a pipeline object refers to: return its pending
chunks and leave it exhausted in the allocation state. -/
def drain (st : InitState) (p : PipelineObj) : Chunks × InitState :=
  ((st.gens.filterMap (fun g => if g.1 = p.genRef then some g.2 else none)).headD [],
   { st with gens := st.gens.map (fun g => if g.1 = p.genRef then (g.1, []) else g) })

/-! ## Helper lemmas: the chunk-accumulating loop -/

theorem chunkedLoop_append {α : Type u} (size : Nat) (l₁ l₂ : List α) :
    ∀ (out : List (List α)) (cur : List α),
      chunkedLoop size out cur (l₁ ++ l₂) =
        chunkedLoop size (chunkedLoop size out cur l₁).1 (chunkedLoop size out cur l₁).2 l₂ := by
  induction l₁ with
  | nil => intro out cur; rfl
  | cons x xs ih =>
    intro out cur
    simp only [List.cons_append, chunkedLoop]
    split <;> exact ih _ _

theorem chunkedLoop_flatten {α : Type u} (size : Nat) (l : List α) :
    ∀ (out : List (List α)) (cur : List α),
      (chunkedLoop size out cur l).1.flatten ++ (chunkedLoop size out cur l).2 =
        out.flatten ++ cur ++ l := by
  induction l with
  | nil => intro out cur; simp [chunkedLoop]
  | cons x xs ih =>
    intro out cur
    simp only [chunkedLoop]
    split
    · rw [ih]; simp
    · rw [ih]; simp

theorem chunkedLoop_mem_length {α : Type u} (size : Nat) (l : List α) :
    ∀ (out : List (List α)) (cur : List α),
      (∀ c ∈ out, c.length = size) →
      ∀ c ∈ (chunkedLoop size out cur l).1, c.length = size := by
  induction l with
  | nil => intro out cur h; exact h
  | cons x xs ih =>
    intro out cur h
    simp only [chunkedLoop]
    split
    · refine ih _ _ (fun c hc => ?_)
      rcases List.mem_append.1 hc with hc | hc
      · exact h c hc
      · simp only [List.mem_singleton] at hc
        subst hc; assumption
    · exact ih _ _ h

theorem chunkedLoop_cur_length {α : Type u} (size : Nat) (hpos : 0 < size) (l : List α) :
    ∀ (out : List (List α)) (cur : List α),
      cur.length < size → (chunkedLoop size out cur l).2.length < size := by
  induction l with
  | nil => intro out cur h; exact h
  | cons x xs ih =>
    intro out cur h
    simp only [chunkedLoop]
    split
    · exact ih _ _ hpos
    · rename_i hne
      have : (cur ++ [x]).length ≤ size := by
        have := Nat.succ_le_of_lt h
        simpa [List.length_append] using this
      exact ih _ _ (lt_of_le_of_ne this hne)

theorem chunked_flatten {α : Type u} (size : Nat) (l : List α) :
    (chunked size l).flatten = l := by
  have h := chunkedLoop_flatten size l [] []
  simp only [List.flatten_nil, List.nil_append] at h
  simp only [chunked]
  rcases hc : (chunkedLoop size [] [] l).2 with _ | ⟨y, ys⟩
  · rw [hc] at h; simpa using h
  · rw [hc] at h
    simpa [List.flatten_append] using h

theorem chunked_dropLast_length {α : Type u} (size : Nat) (hpos : 0 < size) (l : List α) :
    ∀ c ∈ (chunked size l).dropLast, c.length = size := by
  have hall : ∀ c ∈ (chunkedLoop size ([] : List (List α)) [] l).1, c.length = size :=
    chunkedLoop_mem_length size l [] [] (by simp)
  simp only [chunked]
  split
  · intro c hc
    exact hall c (List.dropLast_subset _ hc)
  · intro c hc
    rw [List.dropLast_concat] at hc
    exact hall c hc

/-! ## Helper lemmas: the islice-based chunk generator -/

theorem chunkGeneratorAux_flatten {α : Type u} (size : Nat) (hpos : 0 < size) :
    ∀ (fuel : Nat) (l : List α), l.length ≤ fuel →
      (chunkGeneratorAux size fuel l).flatten = l := by
  intro fuel
  induction fuel with
  | zero =>
    intro l hl
    rw [List.length_eq_zero.1 (Nat.le_zero.1 hl)]
    rfl
  | succ n ih =>
    intro l hl
    simp only [chunkGeneratorAux]
    split
    · rename_i hemp
      rw [List.isEmpty_iff] at hemp
      rcases l with _ | ⟨x, xs⟩
      · rfl
      · exfalso
        obtain ⟨m, rfl⟩ : ∃ m, size = m + 1 := ⟨size - 1, by omega⟩
        rw [List.take_succ_cons] at hemp
        exact List.cons_ne_nil _ _ hemp
    · rw [List.flatten_cons, ih (l.drop size)]
      · exact List.take_append_drop size l
      · have : l.length - size ≤ n := by omega
        simpa using this

theorem chunkGeneratorAux_ne_nil {α : Type u} (size fuel : Nat) (l : List α)
    (h : chunkGeneratorAux size fuel l ≠ []) : ¬ (l.take size).isEmpty := by
  rcases fuel with _ | n
  · exact absurd rfl h
  · intro hemp
    simp only [chunkGeneratorAux, hemp, if_true] at h
    exact h rfl

theorem chunkGeneratorAux_dropLast_length {α : Type u} (size : Nat) :
    ∀ (fuel : Nat) (l : List α),
      ∀ c ∈ (chunkGeneratorAux size fuel l).dropLast, c.length = size := by
  intro fuel
  induction fuel with
  | zero => intro l c hc; simp [chunkGeneratorAux] at hc
  | succ n ih =>
    intro l c hc
    simp only [chunkGeneratorAux] at hc
    split at hc
    · simp at hc
    · rename_i hemp
      rcases hrest : chunkGeneratorAux size n (l.drop size) with _ | ⟨y, ys⟩
      · rw [hrest] at hc; simp at hc
      · rw [hrest, List.dropLast_cons₂] at hc
        rcases List.mem_cons.1 hc with hc | hc
        · subst hc
          have hne : l.drop size ≠ [] := by
            intro hd
            have := chunkGeneratorAux_ne_nil size n (l.drop size) (by rw [hrest]; simp)
            rw [hd] at this
            simp at this
          have hlen : size < l.length := by
            by_contra hle
            exact hne (List.drop_eq_nil_of_le (by omega))
          simp [List.length_take, Nat.min_eq_left (Nat.le_of_lt hlen)]
        · rw [← hrest] at hc
          exact ih (l.drop size) c hc

/-! ## Helper lemmas: terminal operations -/

theorem foldl_toListStep (l : List Item) :
    ∀ (rs : List PyVal) (es : List Exc),
      l.foldl toListStep (rs, es) =
        (rs ++ l.filterMap (fun it => match it.error with
            | none => some it.value
            | some _ => none),
         es ++ l.filterMap (fun it => it.error)) := by
  induction l with
  | nil => intro rs es; simp
  | cons it its ih =>
    intro rs es
    rcases hit : it.error with _ | e <;>
      simp [toListStep, hit, ih, List.filterMap_cons]

theorem toList_eq (chunks : Chunks) :
    toList chunks =
      if (traversalErrors chunks).isEmpty then Except.ok (okValues chunks)
      else Except.error ⟨traversalErrors chunks⟩ := by
  have hfold : chunks.foldl (fun st c => c.foldl toListStep st) ([], []) =
      chunks.flatten.foldl toListStep ([], []) :=
    (List.foldl_flatten toListStep ([], []) chunks).symm
  simp only [toList, hfold, foldl_toListStep, List.nil_append]
  rfl

theorem string_foldl_init (l : List String) :
    ∀ t : String, l.foldl (fun a b => a ++ b) t = t ++ l.foldl (fun a b => a ++ b) "" := by
  induction l with
  | nil => intro t; simp
  | cons y ys ih =>
    intro t
    simp only [List.foldl_cons]
    rw [ih (t ++ y), ih ("" ++ y)]
    simp [String.append_assoc]

theorem foldl_string_append {β : Type u} (g : β → String) (l : List β) :
    ∀ s : String, l.foldl (fun m x => m ++ g x) s = s ++ String.join (l.map g) := by
  induction l with
  | nil => intro s; simp [String.join]
  | cons x xs ih =>
    intro s
    simp only [List.foldl_cons, List.map_cons, String.join, ih]
    rw [string_foldl_init (List.map g xs) ("" ++ g x)]
    rw [show ("" ++ g x) = g x from rfl]
    simp [String.append_assoc]

theorem formatMessage_eq (errors : List Exc) :
    formatMessage errors =
      toString errors.length ++ " error(s) occurred in the pipeline:\n" ++
        String.join ((errors.enumFrom 1).map
          (fun ie => "  " ++ toString ie.1 ++ ". " ++ ie.2.name ++ ": " ++ ie.2.msg ++ "\n")) := by
  simp only [formatMessage]
  rw [foldl_string_append]

/-! ## Claim C1 -/

/-- Claim C1: draining a pipeline with `to_list` returns exactly the values of
the non-errored items in traversal order when no traversed item carries an
error, and raises `CompoundError` exactly when some traversed item carries an
error, the `CompoundError` holding every captured error in traversal order;
and the `CompoundError` message is the count followed by
`" error(s) occurred in the pipeline"`, with each error enumerated from index
one as its type name and message. -/
theorem C1_to_list_compound_error :
    (∀ chunks : Chunks,
      toList chunks =
        if (traversalErrors chunks).isEmpty then Except.ok (okValues chunks)
        else Except.error ⟨traversalErrors chunks⟩) ∧
    (∀ errors : List Exc,
      formatMessage errors =
        toString errors.length ++ " error(s) occurred in the pipeline:\n" ++
          String.join ((errors.enumFrom 1).map
            (fun ie => "  " ++ toString ie.1 ++ ". " ++ ie.2.name ++ ": " ++
              ie.2.msg ++ "\n"))) :=
  ⟨toList_eq, formatMessage_eq⟩

/-! ## Claim C3 -/

/-- Claim C3: for every sequence and every chunk size `n > 0`, the chunking
step yields chunks whose concatenation is the original sequence, every chunk
except possibly the last has length exactly `n`, and an empty sequence yields
zero chunks; this holds for `Pipeline._chunked_and_wrap` (whose yielded chunks
carry the elements wrapped as error-free items) and for
`Transformer._chunk_generator`. -/
theorem C3_chunking_correct {α : Type u} (size : Nat) (l : List α)
    (vals : List PyVal) (hpos : 0 < size) :
    (chunked size l).flatten = l ∧
    (∀ c ∈ (chunked size l).dropLast, c.length = size) ∧
    chunked size ([] : List α) = [] ∧
    (chunkGenerator size l).flatten = l ∧
    (∀ c ∈ (chunkGenerator size l).dropLast, c.length = size) ∧
    chunkGenerator size ([] : List α) = [] ∧
    (chunkedAndWrap size vals).flatten = vals.map (fun v => Item.mk v none) :=
  ⟨chunked_flatten size l,
   chunked_dropLast_length size hpos l,
   rfl,
   chunkGeneratorAux_flatten size hpos l.length l (Nat.le_refl _),
   chunkGeneratorAux_dropLast_length size l.length l,
   rfl,
   chunked_flatten size _⟩

/-- Witness for claim C3 at chunk size two over a five-element sequence. -/
theorem C3_chunking_correct_witness :
    0 < 2 ∧
    ((chunked 2 [1, 2, 3, 4, 5]).flatten = [1, 2, 3, 4, 5] ∧
     (∀ c ∈ (chunked 2 [1, 2, 3, 4, 5]).dropLast, c.length = 2) ∧
     chunked 2 ([] : List Nat) = [] ∧
     (chunkGenerator 2 [1, 2, 3, 4, 5]).flatten = [1, 2, 3, 4, 5] ∧
     (∀ c ∈ (chunkGenerator 2 [1, 2, 3, 4, 5]).dropLast, c.length = 2) ∧
     chunkGenerator 2 ([] : List Nat) = [] ∧
     (chunkedAndWrap 2 [PyVal.int 1, PyVal.int 2, PyVal.int 3]).flatten =
       [PyVal.int 1, PyVal.int 2, PyVal.int 3].map (fun v => Item.mk v none)) :=
  ⟨by decide, C3_chunking_correct 2 [1, 2, 3, 4, 5]
    [PyVal.int 1, PyVal.int 2, PyVal.int 3] (by decide)⟩

/-! ## Claim C7

`Pipeline.first` materializes the whole pipeline through `to_list`, so any
captured error raises `CompoundError` before the emptiness check: a source
consisting entirely of errored items raises `CompoundError`, not the
`StopIteration("Pipeline is empty")` condition the claim asserts. -/

/-- A division-by-zero exception, as captured from a failing user function. -/
def zdeExc : Exc :=
  { name := "ZeroDivisionError", msg := "division by zero" }

/-- Counterexample to claim C7: a pipeline whose single item is errored has
zero successful items, yet `first` raises `CompoundError`, not the
"empty pipeline" `StopIteration`. -/
theorem C7_first_counterexample :
    firstOp [[Item.mk (PyVal.int 0) (some zdeExc)]] =
      Except.error (TerminalErr.compound [zdeExc]) ∧
    firstOp [[Item.mk (PyVal.int 0) (some zdeExc)]] ≠
      Except.error (TerminalErr.stopIteration "Pipeline is empty") := by
  refine ⟨rfl, fun h => ?_⟩
  have h2 := (show firstOp [[Item.mk (PyVal.int 0) (some zdeExc)]] =
      Except.error (TerminalErr.compound [zdeExc]) from rfl).symm.trans h
  simp at h2

/-- Claim C7 as amended: `first` consumes the entire pipeline; when any
traversed item carries an error it raises `CompoundError` with every captured
error (so no error is silently skipped, even when no successful item exists);
only when the traversal yields no errors and no successful values does it fail
with the "empty pipeline" condition; otherwise it returns the first successful
value. -/
theorem C7_first_amended (chunks : Chunks) :
    firstOp chunks =
      match traversalErrors chunks, okValues chunks with
      | [], [] => Except.error (TerminalErr.stopIteration "Pipeline is empty")
      | [], x :: _ => Except.ok x
      | e :: es, _ => Except.error (TerminalErr.compound (e :: es)) := by
  unfold firstOp
  rw [toList_eq]
  rcases h1 : traversalErrors chunks with _ | ⟨e, es⟩ <;>
    rcases h2 : okValues chunks with _ | ⟨x, xs⟩ <;> simp

/-! ## Claim C2 -/

/-- Per-item transition of `map` as the claim describes it: a non-errored
item is replaced by an item holding the function's result with no error; when
the function raises, the item carries the raised exception together with the
unchanged pre-call value; an already-errored item passes through with value
and error unchanged (the function is not applied to it). -/
def mapOne (f : PyVal → Except Exc PyVal) (it : Item) : Item :=
  match it.error with
  | some _ => it
  | none =>
    match f it.value with
    | Except.ok r => Item.mk r none
    | Except.error e => Item.mk it.value (some e)

/-- Whether processing one item through `map` sets the shared `has_errors`
flag: exactly when the item was already errored or the function raises on its
value. -/
def mapFlag (f : PyVal → Except Exc PyVal) (it : Item) : Bool :=
  match it.error with
  | some _ => true
  | none =>
    match f it.value with
    | Except.ok _ => false
    | Except.error _ => true

theorem mapItemStep_eq (f : PyVal → Except Exc PyVal) (st : List Item × Bool) (it : Item) :
    mapItemStep f st it = (st.1 ++ [mapOne f it], st.2 || mapFlag f it) := by
  rcases st with ⟨acc, h⟩
  rcases hit : it.error with _ | e
  · rcases hf : f it.value with r | e <;>
      simp [mapItemStep, mapOne, mapFlag, hit, hf]
  · simp [mapItemStep, mapOne, mapFlag, hit]

theorem foldl_mapItemStep (f : PyVal → Except Exc PyVal) (c : List Item) :
    ∀ (acc : List Item) (h : Bool),
      c.foldl (mapItemStep f) (acc, h) =
        (acc ++ c.map (mapOne f), h || c.any (mapFlag f)) := by
  induction c with
  | nil => intro acc h; simp
  | cons it its ih =>
    intro acc h
    rw [List.foldl_cons, mapItemStep_eq, ih]
    simp [Bool.or_assoc]

theorem mapChunks_eq (f : PyVal → Except Exc PyVal) (chunks : Chunks) :
    ∀ he : Bool,
      mapChunks f chunks he =
        (chunks.map (fun c => c.map (mapOne f)),
         he || chunks.any (fun c => c.any (mapFlag f))) := by
  induction chunks with
  | nil => intro he; simp [mapChunks]
  | cons c cs ih =>
    intro he
    simp only [mapChunks, foldl_mapItemStep, ih]
    simp [Bool.or_assoc]

/-- Claim C2: `map` rebuilds every chunk item by item in order (so processing
continues past errored items), where a non-errored item becomes the
function's result with no error, a non-errored item on which the function
raises becomes an errored item carrying the raised exception and the
unchanged pre-call value, and an already-errored item passes through with
value and error unchanged; the shared context's `has_errors` flag ends up set
exactly when it was already set or some traversed item was errored or raised. -/
theorem C2_map_error_capture (f : PyVal → Except Exc PyVal) (chunks : Chunks) (he : Bool) :
    mapChunks f chunks he =
      (chunks.map (fun c => c.map (mapOne f)),
       he || chunks.any (fun c => c.any (mapFlag f))) ∧
    (∀ v r : PyVal, f v = Except.ok r → mapOne f (Item.mk v none) = Item.mk r none ∧
      mapFlag f (Item.mk v none) = false) ∧
    (∀ (v : PyVal) (e : Exc), f v = Except.error e →
      mapOne f (Item.mk v none) = Item.mk v (some e) ∧
      mapFlag f (Item.mk v none) = true) ∧
    (∀ (it : Item) (e : Exc), it.error = some e →
      mapOne f it = it ∧ mapFlag f it = true) := by
  refine ⟨mapChunks_eq f chunks he, ?_, ?_, ?_⟩
  · intro v r hf
    constructor <;> simp [mapOne, mapFlag, hf]
  · intro v e hf
    constructor <;> simp [mapOne, mapFlag, hf]
  · intro it e hit
    constructor <;> simp [mapOne, mapFlag, hit]

/-- The user function `lambda x: 10 / x`, raising `ZeroDivisionError` at
zero. -/
def tenDivLambda : PyVal → Except Exc PyVal
  | PyVal.int x =>
    if x = 0 then Except.error zdeExc else Except.ok (PyVal.int (10 / x))
  | _ => Except.error { name := "TypeError", msg := "unsupported operand type(s) for /" }

/-- Witness for claim C2: `map` with `lambda x: 10 / x` over a chunk holding
a success, a failure and a pre-errored item. -/
theorem C2_map_error_capture_witness :
    mapChunks tenDivLambda
        [[Item.mk (PyVal.int 5) none, Item.mk (PyVal.int 0) none],
         [Item.mk (PyVal.int 3) (some zdeExc)]] false =
      ([[Item.mk (PyVal.int 2) none, Item.mk (PyVal.int 0) (some zdeExc)],
        [Item.mk (PyVal.int 3) (some zdeExc)]], true) ∧
    (mapOne tenDivLambda (Item.mk (PyVal.int 5) none) = Item.mk (PyVal.int 2) none ∧
      mapFlag tenDivLambda (Item.mk (PyVal.int 5) none) = false) ∧
    (mapOne tenDivLambda (Item.mk (PyVal.int 0) none) =
        Item.mk (PyVal.int 0) (some zdeExc) ∧
      mapFlag tenDivLambda (Item.mk (PyVal.int 0) none) = true) ∧
    (mapOne tenDivLambda (Item.mk (PyVal.int 3) (some zdeExc)) =
        Item.mk (PyVal.int 3) (some zdeExc) ∧
      mapFlag tenDivLambda (Item.mk (PyVal.int 3) (some zdeExc)) = true) := by
  have h := C2_map_error_capture tenDivLambda
    [[Item.mk (PyVal.int 5) none, Item.mk (PyVal.int 0) none],
     [Item.mk (PyVal.int 3) (some zdeExc)]] false
  exact ⟨h.1, h.2.1 (PyVal.int 5) (PyVal.int 2) rfl,
    h.2.2.1 (PyVal.int 0) zdeExc rfl,
    h.2.2.2 (Item.mk (PyVal.int 3) (some zdeExc)) zdeExc rfl⟩

/-! ## Claim C8 -/

theorem reduceItemStep_pure_eq (f : PyVal → PyVal → PyVal)
    (st : PyVal × List Item × Bool) (it : Item) :
    reduceItemStep (fun a x => Except.ok (f a x)) st it =
      ((match it.error with
        | none => f st.1 it.value
        | some _ => st.1),
       st.2.1 ++ (match it.error with
        | none => []
        | some _ => [it]),
       st.2.2 || it.error.isSome) := by
  rcases st with ⟨acc, errs, h⟩
  rcases hit : it.error with _ | e <;> simp [reduceItemStep, hit]

theorem foldl_reduceItemStep (f : PyVal → PyVal → PyVal) (l : List Item) :
    ∀ (acc : PyVal) (errs : List Item) (h : Bool),
      l.foldl (reduceItemStep (fun a x => Except.ok (f a x))) (acc, errs, h) =
        (List.foldl f acc (l.filterMap (fun it => match it.error with
          | none => some it.value
          | some _ => none)),
         errs ++ l.filter (fun it => it.error.isSome),
         h || l.any (fun it => it.error.isSome)) := by
  induction l with
  | nil => intro acc errs h; simp
  | cons it its ih =>
    intro acc errs h
    rw [List.foldl_cons, reduceItemStep_pure_eq, ih]
    rcases hit : it.error with _ | e <;>
      simp [List.filterMap_cons, List.filter_cons, hit, Bool.or_assoc]

/-- The user reduce function `lambda acc, x: acc + x` on integers. -/
def addLambda : PyVal → PyVal → Except Exc PyVal
  | PyVal.int a, PyVal.int b => Except.ok (PyVal.int (a + b))
  | _, _ =>
    Except.error { name := "TypeError", msg := "unsupported operand type(s) for +" }

/-- Claim C8: `reduce` with a non-raising function folds it over exactly the
non-errored items in traversal order starting from the initial value; errored
items are excluded from the fold but re-emitted, the single-item result chunk
following the error-item chunk; over an empty pipeline the result is the
initial value unchanged; and reducing `[1, 2, 3, 4]` with addition from zero
followed by `first` yields ten. -/
theorem C8_reduce_fold (f : PyVal → PyVal → PyVal) (initial : PyVal)
    (chunks : Chunks) (he : Bool) :
    (reduceChunks (fun a x => Except.ok (f a x)) initial chunks he).1 =
      (if (chunks.flatten.filter (fun it => it.error.isSome)).isEmpty then []
       else [chunks.flatten.filter (fun it => it.error.isSome)]) ++
        [[Item.mk (List.foldl f initial (okValues chunks)) none]] ∧
    (∀ (g : PyVal → PyVal → Except Exc PyVal) (init2 : PyVal) (h2 : Bool),
      (reduceChunks g init2 [] h2).1 = [[Item.mk init2 none]]) ∧
    firstOp (reduceChunks addLambda (PyVal.int 0)
        (chunkedAndWrap 1000 [PyVal.int 1, PyVal.int 2, PyVal.int 3, PyVal.int 4])
        false).1 =
      Except.ok (PyVal.int 10) := by
  refine ⟨?_, fun g init2 h2 => rfl, rfl⟩
  have hfold : chunks.foldl
      (fun st c => c.foldl (reduceItemStep (fun a x => Except.ok (f a x))) st)
      (initial, [], he) =
      chunks.flatten.foldl (reduceItemStep (fun a x => Except.ok (f a x)))
        (initial, [], he) :=
    (List.foldl_flatten _ _ chunks).symm
  simp only [reduceChunks, hfold, foldl_reduceItemStep, List.nil_append]
  rfl

/-! ## Claim C4 -/

theorem toList_congr_flatten (c₁ c₂ : Chunks) (h : c₁.flatten = c₂.flatten) :
    toList c₁ = toList c₂ := by
  rw [toList_eq, toList_eq]
  simp only [traversalErrors, okValues, h]

theorem okValues_congr_flatten (c₁ c₂ : Chunks) (h : c₁.flatten = c₂.flatten) :
    okValues c₁ = okValues c₂ := by
  simp only [okValues, h]

theorem traversalErrors_congr_flatten (c₁ c₂ : Chunks) (h : c₁.flatten = c₂.flatten) :
    traversalErrors c₁ = traversalErrors c₂ := by
  simp only [traversalErrors, h]

/-- Counterexample to claim C4: the pure, non-erroring pipeline transform
`reduce(add, 0)` gives `[3, 7]` under `concurrent` (one fold per chunk) but
`[10]` under `apply` (one fold over the whole pipeline) on the source
`[1, 2, 3, 4]` with chunk size two — the results differ even as multisets. -/
theorem C4_concurrent_equiv_counterexample :
    toList (concurrentOrdered
        (fun cs => (reduceChunks addLambda (PyVal.int 0) cs false).1)
        (chunkedAndWrap 2 [PyVal.int 1, PyVal.int 2, PyVal.int 3, PyVal.int 4])) =
      Except.ok [PyVal.int 3, PyVal.int 7] ∧
    toList (applyPipeline
        (fun cs => (reduceChunks addLambda (PyVal.int 0) cs false).1)
        (chunkedAndWrap 2 [PyVal.int 1, PyVal.int 2, PyVal.int 3, PyVal.int 4])) =
      Except.ok [PyVal.int 10] ∧
    ¬ List.Perm [PyVal.int 3, PyVal.int 7] [PyVal.int 10] := by
  refine ⟨rfl, rfl, fun h => ?_⟩
  simpa using h.length_eq

/-- Claim C4 as amended: for every pipeline transform `g` whose item-level
output on the whole chunk stream equals the concatenation of its outputs on
each single-chunk stream (true of pure map/filter/flatten chains, violated by
`reduce`), `concurrent` with `ordered=True` delivers a chunk stream with the
same item sequence as `apply`, so `to_list` agrees exactly; and any
permutation of the delivered chunks (the unordered mode delivers one) has the
same successful values and the same captured errors as `apply` up to
permutation, i.e. as multisets. -/
theorem C4_concurrent_equiv (g : Chunks → Chunks) (chunks : Chunks)
    (hlocal : (g chunks).flatten =
      (chunks.map (fun c => (g [c]).flatten)).flatten) :
    toList (concurrentOrdered g chunks) = toList (applyPipeline g chunks) ∧
    (∀ delivered : Chunks, delivered.Perm (concurrentOrdered g chunks) →
      (okValues delivered).Perm (okValues (applyPipeline g chunks)) ∧
      (traversalErrors delivered).Perm (traversalErrors (applyPipeline g chunks))) := by
  have hflat : (concurrentOrdered g chunks).flatten = (applyPipeline g chunks).flatten := by
    simp only [concurrentOrdered, applyToChunk, applyPipeline]
    exact hlocal.symm
  refine ⟨toList_congr_flatten _ _ hflat, fun delivered hperm => ?_⟩
  have hok : (okValues delivered).Perm (okValues (concurrentOrdered g chunks)) :=
    List.Perm.filterMap _ hperm.flatten
  have herr : (traversalErrors delivered).Perm (traversalErrors (concurrentOrdered g chunks)) :=
    List.Perm.filterMap _ hperm.flatten
  constructor
  · rw [okValues_congr_flatten _ _ hflat] at hok
    exact hok
  · rw [traversalErrors_congr_flatten _ _ hflat] at herr
    exact herr

/-- The user function `lambda x: x * 2` on integers. -/
def doubleLambda : PyVal → Except Exc PyVal
  | PyVal.int a => Except.ok (PyVal.int (2 * a))
  | _ =>
    Except.error { name := "TypeError", msg := "unsupported operand type(s) for *" }

/-- Witness for claim C4 (amended) with the chunk-local transform
`map(lambda x: x * 2)` over `[1, 2, 3]` at chunk size two. -/
theorem C4_concurrent_equiv_witness :
    ((fun cs => (mapChunks doubleLambda cs false).1)
        (chunkedAndWrap 2 [PyVal.int 1, PyVal.int 2, PyVal.int 3])).flatten =
      ((chunkedAndWrap 2 [PyVal.int 1, PyVal.int 2, PyVal.int 3]).map
        (fun c => ((fun cs => (mapChunks doubleLambda cs false).1) [c]).flatten)).flatten ∧
    toList (concurrentOrdered (fun cs => (mapChunks doubleLambda cs false).1)
        (chunkedAndWrap 2 [PyVal.int 1, PyVal.int 2, PyVal.int 3])) =
      toList (applyPipeline (fun cs => (mapChunks doubleLambda cs false).1)
        (chunkedAndWrap 2 [PyVal.int 1, PyVal.int 2, PyVal.int 3])) :=
  ⟨rfl, (C4_concurrent_equiv (fun cs => (mapChunks doubleLambda cs false).1)
    (chunkedAndWrap 2 [PyVal.int 1, PyVal.int 2, PyVal.int 3]) rfl).1⟩

/-! ## Claim C9 -/

theorem flattenInner_eq_chunkedLoop (size : Nat) (xs : List PyVal) :
    ∀ (out : Chunks) (cur : List Item),
      flattenInner size out cur xs =
        chunkedLoop size out cur (xs.map (fun x => Item.mk x none)) := by
  induction xs with
  | nil => intro out cur; rfl
  | cons x xs ih =>
    intro out cur
    simp only [flattenInner, List.map_cons, chunkedLoop]
    split <;> exact ih _ _

theorem chunkedLoop_single (size : Nat) (out : Chunks) (cur : List Item) (x : Item) :
    chunkedLoop size out cur [x] = emitIfFull size (out, cur ++ [x]) := by
  simp only [chunkedLoop, emitIfFull]

theorem flattenStep_eq (size : Nat) (hpos : 0 < size) (out : Chunks)
    (cur : List Item) (he : Bool) (it : Item) (hcur : cur.length < size) :
    flattenStep size (out, cur, he) it =
      ((chunkedLoop size out cur (flattenItemSpec it)).1,
       (chunkedLoop size out cur (flattenItemSpec it)).2,
       he || it.error.isSome) := by
  rcases hit : it.error with _ | e
  · rcases hseq : seqElems it.value with _ | xs
    · simp only [flattenStep, flattenItemSpec, hit, hseq]
      rw [chunkedLoop_single]
      simp
    · simp only [flattenStep, flattenItemSpec, hit, hseq]
      rw [← flattenInner_eq_chunkedLoop]
      have hlt : (flattenInner size out cur xs).2.length < size := by
        rw [flattenInner_eq_chunkedLoop]
        exact chunkedLoop_cur_length size hpos _ out cur hcur
      have : emitIfFull size (flattenInner size out cur xs) =
          flattenInner size out cur xs := by
        simp only [emitIfFull]
        rw [if_neg (Nat.ne_of_lt hlt)]
      rw [this]
      simp
  · simp only [flattenStep, flattenItemSpec, hit]
    rw [chunkedLoop_single]
    simp

theorem foldl_flattenStep (size : Nat) (hpos : 0 < size) (l : List Item) :
    ∀ (out : Chunks) (cur : List Item) (he : Bool), cur.length < size →
      l.foldl (flattenStep size) (out, cur, he) =
        ((chunkedLoop size out cur (l.flatMap flattenItemSpec)).1,
         (chunkedLoop size out cur (l.flatMap flattenItemSpec)).2,
         he || l.any (fun it => it.error.isSome)) := by
  induction l with
  | nil => intro out cur he hcur; simp [chunkedLoop]
  | cons it its ih =>
    intro out cur he hcur
    rw [List.foldl_cons, flattenStep_eq size hpos out cur he it hcur]
    have hcur2 : (chunkedLoop size out cur (flattenItemSpec it)).2.length < size :=
      chunkedLoop_cur_length size hpos _ out cur hcur
    rw [ih _ _ _ hcur2]
    have happ := chunkedLoop_append size (flattenItemSpec it)
      (its.flatMap flattenItemSpec) out cur
    simp only [List.flatMap_cons, happ, List.any_cons, Bool.or_assoc]

theorem flattenChunks_eq_chunked (size : Nat) (hpos : 0 < size)
    (chunks : Chunks) (he : Bool) :
    (flattenChunks size chunks he).1 =
      chunked size (chunks.flatten.flatMap flattenItemSpec) := by
  have hfold : chunks.foldl (fun st c => c.foldl (flattenStep size) st) ([], [], he) =
      chunks.flatten.foldl (flattenStep size) ([], [], he) :=
    (List.foldl_flatten _ _ chunks).symm
  simp only [flattenChunks, hfold,
    foldl_flattenStep size hpos chunks.flatten [] [] he (by simpa using hpos)]
  rfl

/-- Claim C9: `flatten` expands every successful item whose value is a
list/tuple/set into one successful item per inner element in order (empty
inner sequences contribute nothing), passes errored items and non-sequence
values through as single unchanged items, and re-chunks the expanded stream
so every emitted chunk except possibly the last has exactly the configured
chunk size; and `[[1,2],[3,4],[5]]` flattens to `[1,2,3,4,5]` while
`[[],[1],[]]` flattens to `[1]`. -/
theorem C9_flatten_rechunk (size : Nat) (chunks : Chunks) (he : Bool)
    (hpos : 0 < size) :
    (flattenChunks size chunks he).1 =
      chunked size (chunks.flatten.flatMap flattenItemSpec) ∧
    (∀ (v : PyVal) (xs : List PyVal), seqElems v = some xs →
      flattenItemSpec (Item.mk v none) = xs.map (fun x => Item.mk x none)) ∧
    (∀ v : PyVal, seqElems v = none →
      flattenItemSpec (Item.mk v none) = [Item.mk v none]) ∧
    (∀ (it : Item) (e : Exc), it.error = some e → flattenItemSpec it = [it]) ∧
    (∀ c ∈ (flattenChunks size chunks he).1.dropLast, c.length = size) ∧
    toList (flattenChunks 1000 (chunkedAndWrap 1000
        [PyVal.list [PyVal.int 1, PyVal.int 2],
         PyVal.list [PyVal.int 3, PyVal.int 4],
         PyVal.list [PyVal.int 5]]) false).1 =
      Except.ok [PyVal.int 1, PyVal.int 2, PyVal.int 3, PyVal.int 4, PyVal.int 5] ∧
    toList (flattenChunks 1000 (chunkedAndWrap 1000
        [PyVal.list [], PyVal.list [PyVal.int 1], PyVal.list []]) false).1 =
      Except.ok [PyVal.int 1] := by
  refine ⟨flattenChunks_eq_chunked size hpos chunks he, ?_, ?_, ?_, ?_, rfl, rfl⟩
  · intro v xs hseq; simp [flattenItemSpec, hseq]
  · intro v hseq; simp [flattenItemSpec, hseq]
  · intro it e hit; simp [flattenItemSpec, hit]
  · rw [flattenChunks_eq_chunked size hpos chunks he]
    exact chunked_dropLast_length size hpos _

/-- Witness for claim C9 at chunk size two over a stream holding sequence
values, a non-sequence value and an errored item. -/
theorem C9_flatten_rechunk_witness :
    0 < 2 ∧
    ((flattenChunks 2 [[Item.mk (PyVal.list [PyVal.int 1, PyVal.int 2, PyVal.int 3]) none,
        Item.mk (PyVal.int 9) none, Item.mk (PyVal.int 7) (some zdeExc)]] false).1 =
      chunked 2 (([[Item.mk (PyVal.list [PyVal.int 1, PyVal.int 2, PyVal.int 3]) none,
        Item.mk (PyVal.int 9) none,
        Item.mk (PyVal.int 7) (some zdeExc)]] : Chunks).flatten.flatMap flattenItemSpec)) ∧
    flattenItemSpec (Item.mk (PyVal.list [PyVal.int 1, PyVal.int 2]) none) =
      [Item.mk (PyVal.int 1) none, Item.mk (PyVal.int 2) none] ∧
    flattenItemSpec (Item.mk (PyVal.int 9) none) = [Item.mk (PyVal.int 9) none] ∧
    flattenItemSpec (Item.mk (PyVal.int 7) (some zdeExc)) =
      [Item.mk (PyVal.int 7) (some zdeExc)] := by
  have h := C9_flatten_rechunk 2
    [[Item.mk (PyVal.list [PyVal.int 1, PyVal.int 2, PyVal.int 3]) none,
      Item.mk (PyVal.int 9) none, Item.mk (PyVal.int 7) (some zdeExc)]] false (by decide)
  exact ⟨by decide, h.1,
    h.2.1 (PyVal.list [PyVal.int 1, PyVal.int 2]) [PyVal.int 1, PyVal.int 2] rfl,
    h.2.2.1 (PyVal.int 9) rfl,
    h.2.2.2.1 (Item.mk (PyVal.int 7) (some zdeExc)) zdeExc rfl⟩

/-! ## Claim C5 -/

theorem lockBlock_parent (iso : Ctx) (st : ConcState) :
    (lockBlock iso st).parent =
      { st.parent with has_errors :=
          (st.parent.has_errors || (iso.has_errors || !iso.errors.isEmpty)) } := by
  simp only [lockBlock]
  split
  · rename_i hcond
    simp [hcond]
  · rename_i hcond
    simp only [Bool.or_eq_true, not_or, Bool.not_eq_true] at hcond
    simp [hcond.1, hcond.2]

theorem lockBlock_parent_user (iso : Ctx) (st : ConcState) :
    (lockBlock iso st).parent.user = st.parent.user := by
  rw [lockBlock_parent]

theorem lockBlock_parent_errors (iso : Ctx) (st : ConcState) :
    (lockBlock iso st).parent.errors = st.parent.errors := by
  rw [lockBlock_parent]

theorem concurrent_workers_fold (workers : List (Ctx → Ctx)) :
    ∀ st : ConcState,
      (workers.foldl (fun st w => lockBlock (w (mkIsolated st.parent)) st) st).parent =
        { st.parent with has_errors := (st.parent.has_errors ||
            workers.any (fun w => (w (mkIsolated st.parent)).has_errors ||
              !(w (mkIsolated st.parent)).errors.isEmpty)) } := by
  induction workers with
  | nil => intro st; simp
  | cons w ws ih =>
    intro st
    rw [List.foldl_cons, ih]
    have huser : mkIsolated (lockBlock (w (mkIsolated st.parent)) st).parent =
        mkIsolated st.parent := by
      simp only [mkIsolated, lockBlock_parent_user]
    rw [huser, lockBlock_parent]
    simp [Bool.or_assoc]

/-- The worker used in the counterexample to claim C5: its sub-pipeline
records one error entry in the isolated context and appends the processed
value to a list-valued user key `"seen"`. -/
def ctxWorker : Ctx → Ctx := fun iso =>
  { iso with
    has_errors := true
    errors := [(7, zdeExc)]
    user := setKey iso.user "seen" (UVal.ulist [7]) }

/-- Counterexample to claim C5: a worker records an error entry and a
list-valued user key in its isolated context, yet after the whole
`concurrent` call and its consumption the parent context has gained only
`has_errors = True`: its `errors` list is still empty and the user key was
never merged, because the merge block runs eagerly at `concurrent()` call
time — before any worker has run — over the then-empty `merged_errors` and
`isolated_contexts` lists. -/
theorem C5_context_merge_counterexample :
    (ctxWorker (mkIsolated { has_errors := false, errors := [], user := [] })).errors =
      [(7, zdeExc)] ∧
    lookupKey (ctxWorker (mkIsolated
      { has_errors := false, errors := [], user := [] })).user "seen" =
      some (UVal.ulist [7]) ∧
    concurrentCtx { has_errors := false, errors := [], user := [] } [ctxWorker] =
      { has_errors := true, errors := [], user := [] } ∧
    (concurrentCtx { has_errors := false, errors := [], user := [] } [ctxWorker]).errors ≠
      [(7, zdeExc)] ∧
    lookupKey (concurrentCtx { has_errors := false, errors := [], user := [] }
      [ctxWorker]).user "seen" = none := by
  refine ⟨rfl, rfl, rfl, ?_, rfl⟩
  intro h
  have h2 := (show (concurrentCtx { has_errors := false, errors := [], user := [] }
    [ctxWorker]).errors = [] from rfl).symm.trans h
  simp at h2

/-- Claim C5 as amended: each worker does run against an isolated context
that copies the parent's current keys with `has_errors` and `errors` reset,
and after each worker completes its lock-guarded block sets the parent's
`has_errors` when the isolated context recorded any error; but nothing else
of the isolated contexts ever reaches the parent: the parent's `errors` list
and its user-defined keys are left exactly as they were, because the
type-aware merge block executes once, eagerly, when `concurrent()` returns —
before the lazy result pipeline is consumed and hence before any worker has
run — over empty `merged_errors` and `isolated_contexts`. -/
theorem C5_context_merge_amended (parent : Ctx) (workers : List (Ctx → Ctx)) :
    mkIsolated parent = { has_errors := false, errors := [], user := parent.user } ∧
    concurrentCtx parent workers =
      { parent with has_errors := (parent.has_errors ||
          workers.any (fun w => (w (mkIsolated parent)).has_errors ||
            !(w (mkIsolated parent)).errors.isEmpty)) } := by
  refine ⟨rfl, ?_⟩
  have hstart : concurrentCtx parent workers =
      (workers.foldl (fun st w => lockBlock (w (mkIsolated st.parent)) st)
        (finalMergeBlock
          { parent := parent, mergedErrors := [], isolatedContexts := [] })).parent := rfl
  have hinit : finalMergeBlock { parent := parent, mergedErrors := [], isolatedContexts := [] } =
      { parent := parent, mergedErrors := [], isolatedContexts := [] } := by
    simp [finalMergeBlock]
  rw [hstart, hinit, concurrent_workers_fold]

/-! ## Claim C6 -/

theorem maxInFlightFrom_delivers (ds : List Nat) :
    ∀ cur : Nat, maxInFlightFrom cur (ds.map Ev.deliver) = cur := by
  induction ds with
  | nil => intro cur; rfl
  | cons d ds ih =>
    intro cur
    simp only [List.map_cons, maxInFlightFrom, ih]
    omega

theorem le_maxInFlightFrom (t : List Ev) :
    ∀ cur : Nat, cur ≤ maxInFlightFrom cur t := by
  induction t with
  | nil => intro cur; exact Nat.le_refl _
  | cons e es ih =>
    intro cur
    rcases e with i | i
    · calc cur ≤ cur + 1 := Nat.le_succ _
        _ ≤ max (cur + 1) (maxInFlightFrom (cur + 1) es) := Nat.le_max_left _ _
    · exact Nat.le_max_left _ _

theorem maxInFlightFrom_submits (ss : List Nat) (t : List Ev) :
    ∀ cur : Nat,
      maxInFlightFrom cur (ss.map Ev.submit ++ t) =
        maxInFlightFrom (cur + ss.length) t := by
  induction ss with
  | nil => intro cur; rfl
  | cons x xs ih =>
    intro cur
    simp only [List.map_cons, List.cons_append, maxInFlightFrom]
    rw [show (List.map Ev.submit xs).append t = List.map Ev.submit xs ++ t from rfl, ih]
    have h1 : cur + 1 ≤ maxInFlightFrom (cur + 1 + xs.length) t :=
      Nat.le_trans (Nat.le_add_right _ _) (le_maxInFlightFrom t _)
    rw [Nat.max_eq_right h1, show cur + 1 + xs.length = cur + (x :: xs).length from by
      simp only [List.length_cons]
      omega]

theorem transformerOrderedLoop_maxInFlight :
    ∀ (rest queue : List Nat),
      maxInFlightFrom queue.length (transformerOrderedLoop rest queue) =
        queue.length := by
  intro rest
  induction rest with
  | nil => intro queue; exact maxInFlightFrom_delivers queue _
  | cons r rs ih =>
    intro queue
    rcases queue with _ | ⟨i, q⟩
    · rfl
    · simp only [transformerOrderedLoop, maxInFlightFrom]
      have hlen : (q ++ [r]).length = q.length + 1 := by simp
      have := ih (q ++ [r])
      rw [hlen] at this
      simp only [List.length_cons, Nat.add_sub_cancel, this]
      omega

theorem deliveries_append (t₁ t₂ : List Ev) :
    deliveries (t₁ ++ t₂) = deliveries t₁ ++ deliveries t₂ := by
  induction t₁ with
  | nil => rfl
  | cons e es ih => rcases e with i | i <;> simp [deliveries, ih]

theorem deliveries_map_submit (l : List Nat) : deliveries (l.map Ev.submit) = [] := by
  induction l with
  | nil => rfl
  | cons x xs ih => simp [deliveries, ih]

theorem deliveries_map_deliver (l : List Nat) : deliveries (l.map Ev.deliver) = l := by
  induction l with
  | nil => rfl
  | cons x xs ih => simp [deliveries, ih]

theorem submissions_append (t₁ t₂ : List Ev) :
    submissions (t₁ ++ t₂) = submissions t₁ ++ submissions t₂ := by
  induction t₁ with
  | nil => rfl
  | cons e es ih => rcases e with i | i <;> simp [submissions, ih]

theorem submissions_map_submit (l : List Nat) : submissions (l.map Ev.submit) = l := by
  induction l with
  | nil => rfl
  | cons x xs ih => simp [submissions, ih]

theorem submissions_map_deliver (l : List Nat) : submissions (l.map Ev.deliver) = [] := by
  induction l with
  | nil => rfl
  | cons x xs ih => simp [submissions, ih]

theorem transformerOrderedLoop_deliveries :
    ∀ (rest queue : List Nat), (queue ≠ [] ∨ rest = []) →
      deliveries (transformerOrderedLoop rest queue) = queue ++ rest := by
  intro rest
  induction rest with
  | nil =>
    intro queue _
    simp [transformerOrderedLoop, deliveries_map_deliver]
  | cons r rs ih =>
    intro queue hq
    rcases queue with _ | ⟨i, q⟩
    · rcases hq with hq | hq
      · exact absurd rfl hq
      · exact absurd hq (List.cons_ne_nil _ _)
    · simp only [transformerOrderedLoop, deliveries]
      rw [ih (q ++ [r]) (Or.inl (by simp))]
      simp

theorem transformerOrderedLoop_submissions :
    ∀ (rest queue : List Nat), (queue ≠ [] ∨ rest = []) →
      submissions (transformerOrderedLoop rest queue) = rest := by
  intro rest
  induction rest with
  | nil =>
    intro queue _
    simp [transformerOrderedLoop, submissions_map_deliver]
  | cons r rs ih =>
    intro queue hq
    rcases queue with _ | ⟨i, q⟩
    · rcases hq with hq | hq
      · exact absurd rfl hq
      · exact absurd hq (List.cons_ne_nil _ _)
    · simp only [transformerOrderedLoop, submissions]
      rw [ih (q ++ [r]) (Or.inl (by simp))]

/-- Counterexample to claim C6: in `Pipeline.concurrent` with `max_workers = 1`
and `ordered=True` over ten chunks, all ten chunks are submitted before the
first result is consumed, so ten submitted-but-unconsumed tasks are in flight
at once — not at most the pool size plus a small constant slack; the bounded
window the claim describes is what `Transformer._ordered_generator` does
(two in flight for the same pool size). -/
theorem C6_bounded_inflight_counterexample :
    maxInFlight (pipelineOrderedTrace 10) = 10 ∧
    ¬ maxInFlight (pipelineOrderedTrace 10) ≤ 1 + 1 ∧
    maxInFlight (transformerOrderedTrace 1 10) = 2 := by
  refine ⟨?_, ?_, ?_⟩ <;> decide

/-- Claim C6 as amended: `Pipeline.concurrent`'s ordered generator drains the
whole upstream generator into its deque, submitting every one of the `n`
chunks eagerly, so the number of submitted-but-unconsumed tasks reaches `n`
(it is not bounded by the pool size plus a constant), and results are yielded
strictly in submission (FIFO) order; the claimed bounded window is
implemented by `Transformer._ordered_generator`, which submits eagerly only
up to `max_workers + 1` tasks, refills one task per consumed result, keeps at
most `max_workers + 1` tasks in flight, and also yields strictly in
submission order. -/
theorem C6_ordered_scheduling (m n : Nat) :
    maxInFlight (pipelineOrderedTrace n) = n ∧
    deliveries (pipelineOrderedTrace n) = List.range n ∧
    submissions (pipelineOrderedTrace n) = List.range n ∧
    maxInFlight (transformerOrderedTrace m n) ≤ m + 1 ∧
    deliveries (transformerOrderedTrace m n) = List.range n ∧
    submissions (transformerOrderedTrace m n) = List.range n := by
  have hq : (List.range (min (m + 1) n) ≠ [] ∨ List.drop (min (m + 1) n) (List.range n) = []) := by
    rcases Nat.eq_zero_or_pos n with hn | hn
    · right; subst hn; simp
    · left
      have : 0 < min (m + 1) n := by omega
      simp [List.range_eq_nil]
      omega
  have hrange : List.range (min (m + 1) n) ++ List.drop (min (m + 1) n) (List.range n) =
      List.range n := by
    rw [show List.range (min (m + 1) n) = (List.range n).take (min (m + 1) n) by
      rw [List.take_range]
      congr 1
      omega]
    exact List.take_append_drop _ _
  refine ⟨?_, ?_, ?_, ?_, ?_, ?_⟩
  · unfold maxInFlight pipelineOrderedTrace
    rw [maxInFlightFrom_submits, maxInFlightFrom_delivers]
    simp
  · unfold pipelineOrderedTrace
    rw [deliveries_append, deliveries_map_submit, deliveries_map_deliver]
    simp
  · unfold pipelineOrderedTrace
    rw [submissions_append, submissions_map_submit, submissions_map_deliver]
    simp
  · unfold maxInFlight transformerOrderedTrace
    rw [maxInFlightFrom_submits]
    have := transformerOrderedLoop_maxInFlight
      (List.drop (min (m + 1) n) (List.range n)) (List.range (min (m + 1) n))
    simp only [List.length_range] at this
    simp only [Nat.zero_add, List.length_range, this]
    omega
  · unfold transformerOrderedTrace
    rw [deliveries_append, deliveries_map_submit,
      transformerOrderedLoop_deliveries _ _ hq]
    simpa using hrange
  · unfold transformerOrderedTrace
    rw [submissions_append, submissions_map_submit,
      transformerOrderedLoop_submissions _ _ hq]
    exact hrange

/-! ## Claim C10 -/

/-- Claim C10: constructing `Pipeline(p, chunk_size=k)` from an existing
pipeline `p` copies `p`'s generator reference, context reference and chunk
size — the `chunk_size` argument `k` is ignored, and no fresh context is
allocated (the allocation state is untouched); consequently draining the new
pipeline drains exactly `p`'s generator and leaves both exhausted.  Only the
plain-iterable branch allocates a fresh context, initialised with
`has_errors=False` and `errors=[]`, together with a fresh generator holding
the wrapped chunk stream. -/
theorem C10_constructor_sharing (p : PipelineObj) (k : Nat) (st : InitState)
    (vals : List PyVal) (k2 : Nat) (st2 : InitState) :
    mkPipeline (Source.pipeline p) k st =
      ({ genRef := p.genRef, ctxRef := p.ctxRef, chunk_size := p.chunk_size }, st) ∧
    drain st (mkPipeline (Source.pipeline p) k st).1 = drain st p ∧
    mkPipeline (Source.iterable vals) k2 st2 =
      ({ genRef := st2.next + 1, ctxRef := st2.next, chunk_size := k2 },
       { next := st2.next + 2,
         ctxs := st2.ctxs ++ [(st2.next, { has_errors := false, errors := [], user := [] })],
         gens := st2.gens ++ [(st2.next + 1, chunkedAndWrap k2 vals)] }) :=
  ⟨rfl, rfl, rfl⟩

end Efemel
